import Mathlib

/-!
Verification of the tiered KV-cache storage and paged-attention core of
`ollama-kv-cache-tiering`.

Part 1 embeds `diskstore/store.go` (the Block Store): state, `Put`, `Get`,
`Has`, `RemoveSeq`, `Close`/`New`, and the local-to-remote migration
`evictLocalToRemote`.  Filesystem writes and reads are modelled as a total
key/tier-indexed map held in the state (the model filesystem never faults),
and the zstd encoder/decoder pair is modelled as an abstract `Codec`
parameter (the library is external to the repository; its contract
`dec (enc x) = x` enters theorems as a hypothesis where needed).  The JSON
round-trip of the index performed by `saveIndex`/`loadIndex` is modelled as
preserving the index contents, which is the documented contract of the
marshaller on this map type.

Part 2 embeds the online-softmax chunk kernel and normalize kernel of
`paged_attn.cu` in exact real arithmetic, and the control flow of
`pa_forward` (chunking, kernel-launch sequence, precondition checks) as an
explicit launch trace.
-/

namespace diskstore

/-- Storage tier of a block: the fast local directory or the slow remote
directory ("local"/"remote" strings in the Go source). -/
inductive Tier where
  | local
  | remote
deriving DecidableEq, Repr

/-- BlockKey from store.go: identifies one evicted KV block. -/
structure BlockKey where
  seq : ℤ
  layer : ℤ
  beginPos : ℤ
  endPos : ℤ
  isKey : Bool
deriving DecidableEq, Repr

/-- String method of BlockKey: `seq<S>_L<L>_{k|v}_p<B>-<E>`. -/
def keyString (k : BlockKey) : String :=
  "seq" ++ toString k.seq ++ "_L" ++ toString k.layer ++ "_"
    ++ (if k.isKey then "k" else "v")
    ++ "_p" ++ toString k.beginPos ++ "-" ++ toString k.endPos

/-- BlockMeta from store.go: per-block metadata record persisted in the
index.  Timestamps are modelled as naturals supplied by an explicit clock
argument to the operations that call `time.Now()`. -/
structure BlockMeta where
  key : BlockKey
  dtypeStr : String
  shape : List ℤ
  sizeBytes : ℤ
  compressed : Bool
  tier : Tier
  storedAt : ℕ
  accessedAt : ℕ
deriving DecidableEq, Repr

/-- Abstract model of the zstd encoder/decoder pair held by the store.
Bytes are naturals.  The library is external to the repository; the
round-trip contract is assumed as a hypothesis where a theorem needs it. -/
structure Codec where
  enc : List ℕ → List ℕ
  dec : List ℕ → List ℕ

/-- Store from store.go.  The Go `index` is a map keyed by
`BlockKey.String()`; it is modelled as an association list of `BlockMeta`
(each meta carries its key), whose list order stands for the map's
(unspecified) iteration order.  `files` models the block files on disk,
keyed by (block key, tier); `savedIndex` models the contents of
`index.json`. -/
structure Store where
  localPath : String
  remotePath : String
  index : List BlockMeta
  localBudget : ℤ
  remoteBudget : ℤ
  localUsed : ℤ
  remoteUsed : ℤ
  compress : Bool
  files : List ((BlockKey × Tier) × List ℕ)
  savedIndex : List BlockMeta
deriving DecidableEq, Repr

/-- Config from store.go. -/
structure Config where
  localPath : String
  remotePath : String
  localBudget : ℤ
  remoteBudget : ℤ
  compress : Bool
deriving DecidableEq, Repr

/-- Errors `Put` can surface.  The spec (§7) names `BudgetExhausted`;
`store.go`'s `Put` only ever propagates filesystem errors, modelled as
`ioError` (never produced here because the model filesystem is total). -/
inductive StoreError where
  | budgetExhausted
  | ioError
deriving DecidableEq, Repr

/-- Result of `Get`: `nil, nil, nil` (not found), an error, or bytes plus
metadata. -/
inductive GetResult where
  | notFound
  | ioError
  | found (data : List ℕ) (meta : BlockMeta)
deriving DecidableEq, Repr

/-- Lookup of a file's bytes in the modelled filesystem. -/
def readFileAt (files : List ((BlockKey × Tier) × List ℕ)) (k : BlockKey) (t : Tier) :
    Option (List ℕ) :=
  (files.find? (fun e => e.1 = (k, t))).map (·.2)

/-- Write (create or overwrite) a file in the modelled filesystem. -/
def writeFileAt (files : List ((BlockKey × Tier) × List ℕ)) (k : BlockKey) (t : Tier)
    (data : List ℕ) : List ((BlockKey × Tier) × List ℕ) :=
  ((k, t), data) :: files.filter (fun e => ¬ e.1 = (k, t))

/-- Delete a file (`os.Remove`); removing a missing file is a no-op error
the source ignores. -/
def removeFileAt (files : List ((BlockKey × Tier) × List ℕ)) (k : BlockKey) (t : Tier) :
    List ((BlockKey × Tier) × List ℕ) :=
  files.filter (fun e => ¬ e.1 = (k, t))

/-- Index lookup by block key (the Go map access `s.index[key.String()]`). -/
def indexFind (index : List BlockMeta) (k : BlockKey) : Option BlockMeta :=
  index.find? (fun m => m.key = k)

/-- Insert or replace the entry for a key in the index, mirroring Go map
assignment: an existing entry is replaced in place (iteration order kept),
a new entry is appended. -/
def indexInsert (index : List BlockMeta) (meta : BlockMeta) : List BlockMeta :=
  if (indexFind index meta.key).isSome then
    index.map (fun m => if m.key = meta.key then meta else m)
  else
    index ++ [meta]

/-- The scan in `evictLocalToRemote` that finds the oldest local block:
iterate the index in order, keep the entry whose `AccessedAt` is strictly
before the best so far (`time.Before`), so ties keep the earlier-visited
entry. -/
def findOldestLocal (index : List BlockMeta) : Option BlockMeta :=
  index.foldl
    (fun oldest meta =>
      if meta.tier = Tier.local then
        match oldest with
        | none => some meta
        | some o => if meta.accessedAt < o.accessedAt then some meta else oldest
      else oldest)
    none

/-- Set the tier of the index entry with the given key (the in-place
mutation `oldest.Tier = "remote"`). -/
def indexSetTier (index : List BlockMeta) (k : BlockKey) (t : Tier) : List BlockMeta :=
  index.map (fun m => if m.key = k then { m with tier := t } else m)

/-- evictLocalToRemote from store.go: move the oldest local block to the
remote tier.  Returns `none` where the source returns `false` (no remote
tier, no local block, remote budget exceeded, or a file operation fails). -/
def evictLocalToRemote (s : Store) : Option Store :=
  if s.remotePath = "" then none
  else
    match findOldestLocal s.index with
    | none => none
    | some oldest =>
      if s.remoteUsed + oldest.sizeBytes > s.remoteBudget then none
      else
        match readFileAt s.files oldest.key Tier.local with
        | none => none
        | some data =>
          some { s with
            files := removeFileAt
              (writeFileAt s.files oldest.key Tier.remote data)
              oldest.key Tier.local,
            localUsed := s.localUsed - data.length,
            remoteUsed := s.remoteUsed + data.length,
            index := indexSetTier s.index oldest.key Tier.remote }

/-- The migration loop at the top of `Put`: while the payload does not fit
in the local budget, migrate; stop when a migration fails.  The fuel bounds
the number of successful migrations; each success turns one local entry
remote, so `s.index.length + 1` fuel is never exhausted before the loop's
own exit conditions fire. -/
def evictUntilFits : ℕ → ℤ → Store → Store
  | 0, _, s => s
  | fuel + 1, need, s =>
    if s.localUsed + need > s.localBudget then
      match evictLocalToRemote s with
      | some s' => evictUntilFits fuel need s'
      | none => s
    else s

/-- Put from store.go.  Returns the mutated store and the Go error value
(`none` = nil).  The model filesystem is total, so the source's two
filesystem-error returns cannot fire. -/
def Put (s : Store) (codec : Codec) (key : BlockKey) (dtype : String)
    (shape : List ℤ) (data : List ℕ) (now : ℕ) : Store × Option StoreError :=
  let payload := if s.compress then codec.enc data else data
  let compressed := s.compress
  let s1 := evictUntilFits (s.index.length + 1) payload.length s
  let meta : BlockMeta :=
    { key := key, dtypeStr := dtype, shape := shape, sizeBytes := data.length,
      compressed := compressed, tier := Tier.local, storedAt := now,
      accessedAt := now }
  ({ s1 with
      files := writeFileAt s1.files key Tier.local payload,
      index := indexInsert s1.index meta,
      localUsed := s1.localUsed + payload.length },
   none)

/-- Get from store.go: index lookup, file read at the recorded tier,
decompression when flagged and a decoder exists (the decoder exists exactly
when the store was configured with compression), accessed-at update. -/
def Get (s : Store) (codec : Codec) (key : BlockKey) (now : ℕ) :
    GetResult × Store :=
  match indexFind s.index key with
  | none => (GetResult.notFound, s)
  | some meta =>
    match readFileAt s.files key meta.tier with
    | none => (GetResult.ioError, s)
    | some payload =>
      let data := if meta.compressed && s.compress then codec.dec payload else payload
      let meta' := { meta with accessedAt := now }
      (GetResult.found data meta',
       { s with index := indexInsert s.index meta' })

/-- Has from store.go: a pure index lookup. -/
def Has (s : Store) (key : BlockKey) : Bool :=
  (indexFind s.index key).isSome

/-- RemoveSeq from store.go: delete every block of a sequence from the
index and the filesystem, updating the per-tier counters by the recorded
(uncompressed) sizes.  Returns the new store and the number removed. -/
def RemoveSeq (s : Store) (seq : ℤ) : Store × ℕ :=
  let victims := s.index.filter (fun m => m.key.seq = seq)
  let s' := victims.foldl
    (fun acc m =>
      { acc with
        files := removeFileAt acc.files m.key m.tier,
        localUsed := if m.tier = Tier.local then acc.localUsed - m.sizeBytes
                     else acc.localUsed,
        remoteUsed := if m.tier = Tier.remote then acc.remoteUsed - m.sizeBytes
                      else acc.remoteUsed })
    s
  ({ s' with index := s'.index.filter (fun m => ¬ m.key.seq = seq) },
   victims.length)

/-- Close from store.go: persist the index (saveIndex writes `index.json`). -/
def Close (s : Store) : Store :=
  { s with savedIndex := s.index }

/-- New from store.go: build a store from a config and the persistent
artifacts (block files plus the saved `index.json` contents), replaying
`loadIndex`'s usage recomputation from the recorded sizes. -/
def New (cfg : Config) (files : List ((BlockKey × Tier) × List ℕ))
    (saved : List BlockMeta) : Store :=
  { localPath := cfg.localPath
    remotePath := cfg.remotePath
    index := saved
    localBudget := cfg.localBudget
    remoteBudget := cfg.remoteBudget
    localUsed := ((saved.filter (fun m => m.tier = Tier.local)).map
      (fun m => m.sizeBytes)).sum
    remoteUsed := ((saved.filter (fun m => m.tier = Tier.remote)).map
      (fun m => m.sizeBytes)).sum
    compress := cfg.compress
    files := files
    savedIndex := saved }

/-- The configuration a store was opened with. -/
def configOf (s : Store) : Config :=
  { localPath := s.localPath, remotePath := s.remotePath,
    localBudget := s.localBudget, remoteBudget := s.remoteBudget,
    compress := s.compress }

/-- Close the store and reopen it with the same configuration over the same
on-disk artifacts (`Close(); New(same_config)`). -/
def reopen (s : Store) : Store :=
  let c := Close s
  New (configOf s) c.files c.savedIndex

/-- Sum of the recorded sizes of index entries on the given tier — the
recomputed sum the spec's budget invariant compares the counters against. -/
def metaSum (index : List BlockMeta) (t : Tier) : ℤ :=
  ((index.filter (fun m => m.tier = t)).map (fun m => m.sizeBytes)).sum

end diskstore

namespace pagedattn

/-- Running online-softmax state of one (batch, query-head) block: running
maximum `m`, running exp-sum `l`, and the per-dimension accumulator `o`
(one `o` component per thread `tid < D`). -/
structure PAState (D : ℕ) where
  m : ℝ
  l : ℝ
  o : Fin D → ℝ

theorem PAState.ext {D : ℕ} {a b : PAState D}
    (hm : a.m = b.m) (hl : a.l = b.l) (ho : a.o = b.o) : a = b := by
  cases a; cases b; cases hm; cases hl; cases ho; rfl

/-- One KV position as the kernel sees it after GQA head selection: the K
row and the V row of the selected KV head. -/
abbrev Row (D : ℕ) := (Fin D → ℝ) × (Fin D → ℝ)

noncomputable section

/-- Attention logit of one position: the warp-reduced dot product
`Σ_t Q[t]·K[t]` times the scale (phase 1 of the chunk kernel), in exact
real arithmetic. -/
def scoreOf {D : ℕ} (scale : ℝ) (q k : Fin D → ℝ) : ℝ :=
  (∑ t, q t * k t) * scale

/-- Scores of a whole chunk, in position order. -/
def chunkScores {D : ℕ} (scale : ℝ) (q : Fin D → ℝ) (chunk : List (Row D)) : List ℝ :=
  chunk.map (fun r => scoreOf scale q r.1)

/-- Maximum of a list of scores, as phase 2 of the chunk kernel computes it
for a nonempty chunk (the `-FLT_MAX` seed of the source is the identity of
`max` in the exact-arithmetic idealization). -/
def listMax : List ℝ → ℝ
  | [] => 0
  | x :: xs => xs.foldl max x

/-- paged_attn_chunk_kernel (phases 2-4) for one (batch, query-head) block,
in exact real arithmetic: chunk max, running max update, correction factor
(`0` on the first chunk, where `m_old` is the `-FLT_MAX` sentinel),
rescaling of the old accumulator, and accumulation of the chunk's
exp-weights into `l` and `o`. -/
def paChunkKernel {D : ℕ} (scale : ℝ) (q : Fin D → ℝ) (chunk : List (Row D))
    (isFirst : Bool) (st : PAState D) : PAState D :=
  let mChunk := listMax (chunkScores scale q chunk)
  let mOld : ℝ := if isFirst then 0 else st.m
  let mNew : ℝ := if isFirst then mChunk else max mOld mChunk
  let corr : ℝ := if isFirst then 0 else Real.exp (mOld - mNew)
  let lPrev : ℝ := (if isFirst then 0 else st.l) * corr
  let oPrev : Fin D → ℝ := fun d => (if isFirst then 0 else st.o d) * corr
  { m := mNew
    l := lPrev + (chunk.map (fun r => Real.exp (scoreOf scale q r.1 - mNew))).sum
    o := fun d => oPrev d
      + (chunk.map (fun r => Real.exp (scoreOf scale q r.1 - mNew) * r.2 d)).sum }

/-- paged_attn_normalize_kernel: `inv_l = l > 0 ? 1/l : 0`, output
`o · inv_l` per dimension. -/
def paNormalize {D : ℕ} (st : PAState D) : Fin D → ℝ :=
  let invL : ℝ := if 0 < st.l then 1 / st.l else 0
  fun d => st.o d * invL

/-- Run the chunk kernel over a list of chunks the way `pa_forward` does:
the first launch with `is_first` set, every later launch accumulating. -/
def paRunChunks {D : ℕ} (scale : ℝ) (q : Fin D → ℝ) :
    List (List (Row D)) → PAState D
  | [] => { m := 0, l := 0, o := fun _ => 0 }
  | c :: cs =>
    cs.foldl (fun st ch => paChunkKernel scale q ch false st)
      (paChunkKernel scale q c true { m := 0, l := 0, o := fun _ => 0 })

/-- Split a position list into consecutive chunks of `c` positions (the
last possibly shorter), the chunking `pa_forward` performs for `c ≥ 1`. -/
def chunksOf {α : Type} : ℕ → List α → List (List α)
  | _, [] => []
  | c, x :: xs => (x :: xs.take (c - 1)) :: chunksOf c (xs.drop (c - 1))
termination_by _ l => l.length
decreasing_by
  simp only [List.length_drop, List.length_cons]
  omega

/-- The value the device holds after a `pa_forward` over KV list `kv` with
chunk size `c`, for one (batch, query-head) block: run the chunk kernel
over every chunk, then normalize. -/
def paForwardOut {D : ℕ} (scale : ℝ) (q : Fin D → ℝ) (kv : List (Row D))
    (c : ℕ) : Fin D → ℝ :=
  paNormalize (paRunChunks scale q (chunksOf c kv))

/-- Reference un-chunked attention, written from the spec's words
`softmax(s · Q · Kᵀ) · V`: softmax weights over all positions at once,
then the weighted sum of V rows. -/
def specSoftmaxAttention {D : ℕ} (scale : ℝ) (q : Fin D → ℝ)
    (kv : List (Row D)) : Fin D → ℝ :=
  let denom := (kv.map (fun r => Real.exp (scoreOf scale q r.1))).sum
  fun d => (kv.map (fun r => (Real.exp (scoreOf scale q r.1) / denom) * r.2 d)).sum

/-- The state that holds after processing the KV prefix `sv` in one or more
chunks: max score, exp-sum against that max, and the weighted V
accumulator. -/
def stateFor {D : ℕ} (scale : ℝ) (q : Fin D → ℝ) (sv : List (Row D)) : PAState D :=
  let M := listMax (chunkScores scale q sv)
  { m := M
    l := (sv.map (fun r => Real.exp (scoreOf scale q r.1 - M))).sum
    o := fun d => (sv.map (fun r => Real.exp (scoreOf scale q r.1 - M) * r.2 d)).sum }

end

/-- GQA mapping of the chunk kernel:
`kv_head = q_head * num_kv_heads / num_q_heads` (integer division). -/
def gqaKvHead (qHead numQHeads numKvHeads : ℕ) : ℕ :=
  qHead * numKvHeads / numQHeads

noncomputable section

/-- KV rows the kernel reads for query head `qh`: for each position, the K
and V rows of KV head `gqaKvHead qh`, taken from the full per-head arrays. -/
def gqaSelect {D : ℕ} (K V : ℕ → ℕ → Fin D → ℝ) (nq nkv qh : ℕ)
    (positions : List ℕ) : List (Row D) :=
  positions.map (fun p => (K p (gqaKvHead qh nq nkv), V p (gqaKvHead qh nq nkv)))

/-- The chunk kernel over the whole grid: block (qh) runs `paChunkKernel`
on the rows `gqaSelect` picks for that query head. -/
def mhChunkKernel {D : ℕ} (scale : ℝ) (Q : ℕ → Fin D → ℝ)
    (K V : ℕ → ℕ → Fin D → ℝ) (nq nkv : ℕ) (positions : List ℕ)
    (isFirst : Bool) (st : ℕ → PAState D) : ℕ → PAState D :=
  fun qh => paChunkKernel scale (Q qh) (gqaSelect K V nq nkv qh positions)
    isFirst (st qh)

end

end pagedattn

namespace pagedattn

/-- ceil_div from paged_attn.cu: `(a + b - 1) / b`. -/
def ceilDiv (a b : ℕ) : ℕ := (a + b - 1) / b

/-- One device-side kernel launch issued by `pa_forward`: a chunk-kernel
launch carrying its `is_first` flag and actual chunk length, or the final
normalize-kernel launch. -/
inductive Launch where
  | chunk (isFirst : Bool) (chunkLen : ℕ)
  | normalize
deriving DecidableEq, Repr

/-- Whether a launch is a chunk-kernel launch. -/
def Launch.isChunk : Launch → Bool
  | .chunk _ _ => true
  | .normalize => false

/-- Whether a launch is the normalize-kernel launch. -/
def Launch.isNormalize : Launch → Bool
  | .chunk _ _ => false
  | .normalize => true

/-- Element type of the context (`pa_dtype_t`). -/
inductive PaDtype where
  | f16
  | f32
deriving DecidableEq, Repr

/-- pa_elem_size from paged_attn.cu. -/
def paElemSize : PaDtype → ℕ
  | .f16 => 2
  | .f32 => 4

/-- Per-layer host KV registration slot of `pa_ctx`.  Host pointers are
modelled as naturals with `0` for NULL (the unregistered state left by
`calloc`). -/
structure PaLayerReg where
  kHost : ℕ
  vHost : ℕ
  totalPos : ℤ
deriving DecidableEq, Repr

/-- Counters of `pa_stats_t` that `pa_forward` updates. -/
structure PaStats where
  chunksProcessed : ℤ
  bytesTransferred : ℤ
deriving DecidableEq, Repr

/-- The host-side fields of `pa_ctx` that `pa_forward` reads or writes.
The layer registration array `layers[PA_MAX_LAYERS]` is modelled as a
function from the layer number. -/
structure PaCtx where
  numKvHeads : ℕ
  headDim : ℕ
  chunkSize : ℕ
  dtype : PaDtype
  layers : ℕ → PaLayerReg
  stats : PaStats
  stateCapacity : ℕ

/-- PA_MAX_LAYERS. -/
def paMaxLayers : ℤ := 128

/-- pa_register_host_kv: record the host pointers and length for a layer
(bounds-checked; `-1` on a bad context or layer). -/
def paRegisterHostKv (ctx? : Option PaCtx) (layer : ℤ) (kHost vHost : ℕ)
    (totalPos : ℤ) : Option PaCtx × ℤ :=
  match ctx? with
  | none => (none, -1)
  | some ctx =>
    if layer < 0 ∨ paMaxLayers ≤ layer then (some ctx, -1)
    else
      (some { ctx with layers := fun l =>
        if l = layer.toNat then
          { kHost := kHost, vHost := vHost, totalPos := totalPos }
        else ctx.layers l }, 0)

/-- Length of chunk number `i` when `n` positions are split into chunks of
`c`: `chunk_size`, except the tail chunk gets the remainder. -/
def chunkLenAt (n c i : ℕ) : ℕ := min c (n - i * c)

/-- The chunk-kernel launches of `pa_forward`'s main loop, in issue order:
iteration `i` launches with `is_first = (i == 0)` and the chunk's actual
length. -/
def chunkLaunchList (n c : ℕ) : List Launch :=
  (List.range (ceilDiv n c)).map (fun i => Launch.chunk (i = 0) (chunkLenAt n c i))

/-- Head dims with a kernel instantiation in the dispatch switch. -/
def supportedHeadDim (d : ℕ) : Bool :=
  d == 64 || d == 80 || d == 96 || d == 128 || d == 256

/-- Decidable rendering of `pa_forward`'s guard sequence failing: NULL
context, layer outside `[0, PA_MAX_LAYERS)`, no registered host K or V
pointer for the layer, or non-positive sequence length. -/
def paPrecondFails (ctx? : Option PaCtx) (layer : ℤ) (seqLen : ℤ) : Bool :=
  match ctx? with
  | none => true
  | some ctx =>
    decide (layer < 0) || decide (paMaxLayers ≤ layer) ||
    (ctx.layers layer.toNat).kHost == 0 || (ctx.layers layer.toNat).vHost == 0 ||
    decide (seqLen ≤ 0)

/-- pa_forward from paged_attn.cu, as its host-visible behaviour: the
return code, the context after the call, and the ordered list of kernel
launches issued on the compute stream.  The guard sequence is checked
first and returns `-1` with nothing done; then the state buffers are
grown to `batch_size * num_q_heads`; an unsupported head_dim aborts with
`-1` from inside the loop's dispatch switch before any kernel launch or
stats update; otherwise the loop launches one chunk kernel per chunk
(`is_first` on the first), bumps the stats, and the normalize kernel is
launched once after the loop. -/
def paForward (ctx? : Option PaCtx) (layer : ℤ) (batchSize numQHeads : ℕ)
    (seqLen : ℤ) : Option PaCtx × ℤ × List Launch :=
  match ctx? with
  | none => (none, -1, [])
  | some ctx =>
    if layer < 0 ∨ paMaxLayers ≤ layer then (some ctx, -1, [])
    else if (ctx.layers layer.toNat).kHost = 0 ∨ (ctx.layers layer.toNat).vHost = 0 then
      (some ctx, -1, [])
    else if seqLen ≤ 0 then (some ctx, -1, [])
    else
      let n := seqLen.toNat
      let c := ctx.chunkSize
      let numChunks := ceilDiv n c
      let ctx1 := { ctx with stateCapacity := max ctx.stateCapacity (batchSize * numQHeads) }
      if supportedHeadDim ctx.headDim then
        let rowBytes := ctx.numKvHeads * ctx.headDim * paElemSize ctx.dtype
        let ctx2 := { ctx1 with stats :=
          { chunksProcessed := ctx1.stats.chunksProcessed + numChunks
            bytesTransferred := ctx1.stats.bytesTransferred +
              ((List.range numChunks).map
                (fun i => (chunkLenAt n c i * rowBytes * 2 : ℤ))).sum } }
        (some ctx2, 0, chunkLaunchList n c ++ [Launch.normalize])
      else
        (some ctx1, -1, [])

end pagedattn

namespace diskstore

theorem readFileAt_writeFileAt_same (fs : List ((BlockKey × Tier) × List ℕ))
    (k : BlockKey) (t : Tier) (d : List ℕ) :
    readFileAt (writeFileAt fs k t d) k t = some d := by
  simp [readFileAt, writeFileAt]

theorem find_map_insert (meta : BlockMeta) (idx : List BlockMeta) :
    List.find? (fun m => m.key = meta.key)
        (idx.map (fun m => if m.key = meta.key then meta else m))
      = if (List.find? (fun m => m.key = meta.key) idx).isSome then some meta
        else none := by
  induction idx with
  | nil => simp
  | cons m rest ih =>
    by_cases hm : m.key = meta.key
    · simp [hm]
    · simp [hm, ih]

theorem indexFind_insert (idx : List BlockMeta) (meta : BlockMeta) :
    indexFind (indexInsert idx meta) meta.key = some meta := by
  unfold indexInsert
  by_cases h : (indexFind idx meta.key).isSome
  · rw [if_pos h]
    unfold indexFind at h ⊢
    rw [find_map_insert meta idx, if_pos h]
  · rw [if_neg h]
    unfold indexFind at h ⊢
    rw [List.find?_append]
    rw [Option.not_isSome_iff_eq_none] at h
    rw [h]
    simp

theorem evictLocalToRemote_compress (s s' : Store)
    (h : evictLocalToRemote s = some s') : s'.compress = s.compress := by
  unfold evictLocalToRemote at h
  split at h
  · exact absurd h (by simp)
  · split at h
    · exact absurd h (by simp)
    · split at h
      · exact absurd h (by simp)
      · split at h
        · exact absurd h (by simp)
        · simp only [Option.some.injEq] at h
          subst h
          rfl

theorem evictUntilFits_compress (fuel : ℕ) (need : ℤ) (s : Store) :
    (evictUntilFits fuel need s).compress = s.compress := by
  induction fuel generalizing s with
  | zero => rfl
  | succ f ih =>
    unfold evictUntilFits
    split
    · cases h : evictLocalToRemote s with
      | none => rfl
      | some s' => rw [ih s', evictLocalToRemote_compress s s' h]
    · rfl

end diskstore

namespace diskstore

/-- Claim C6: for every store state and key, `Has(k)` is true exactly when
`Get(k)` yields something other than the not-found result, and exactly when
the index contains an entry for `k`. -/
theorem has_iff_get_iff_index (s : Store) (codec : Codec) (key : BlockKey)
    (now : ℕ) :
    (Has s key = true ↔ (Get s codec key now).1 ≠ GetResult.notFound) ∧
    (Has s key = true ↔ (indexFind s.index key).isSome = true) := by
  refine ⟨?_, Iff.rfl⟩
  unfold Has Get
  cases h : indexFind s.index key with
  | none => simp [h]
  | some meta =>
    cases hf : readFileAt s.files key meta.tier with
    | none => simp [h, hf]
    | some payload => simp [h, hf]

/-- Claim C4: closing the store and reopening it with the same
configuration over the same on-disk artifacts preserves `Has` for every
key and makes `Get` return identical bytes and metadata (with the same
clock, the results are literally equal). -/
theorem reopen_preserves_blocks (s : Store) (codec : Codec) (key : BlockKey)
    (now : ℕ) :
    Has (reopen s) key = Has s key ∧
    (Get (reopen s) codec key now).1 = (Get s codec key now).1 := by
  have hidx : (reopen s).index = s.index := rfl
  have hfiles : (reopen s).files = s.files := rfl
  have hcmp : (reopen s).compress = s.compress := rfl
  constructor
  · unfold Has
    rw [hidx]
  · unfold Get
    simp only [hidx, hfiles, hcmp]
    cases h : indexFind s.index key with
    | none => simp [h]
    | some meta =>
      cases hf : readFileAt s.files key meta.tier with
      | none => simp [h, hf]
      | some payload => simp [h, hf]

/-- Claim C1 (amended): `Put` never fails with `BudgetExhausted`; whatever
the migration loop achieves, the block is then written to the local tier,
indexed, and `Put` returns nil. -/
theorem put_never_budget_exhausted (s : Store) (codec : Codec) (key : BlockKey)
    (dtype : String) (shape : List ℤ) (data : List ℕ) (now : ℕ) :
    (Put s codec key dtype shape data now).2 = none ∧
    Has (Put s codec key dtype shape data now).1 key = true := by
  refine ⟨rfl, ?_⟩
  unfold Put Has
  dsimp only
  rw [indexFind_insert]
  rfl

end diskstore

namespace diskstore

/-- Claim C3: after a `Put`, `Get` on the same key returns exactly the
original bytes, under both compression settings, with metadata recording
the uncompressed length and the given shape. -/
theorem put_get_roundtrip (s : Store) (codec : Codec) (key : BlockKey)
    (dtype : String) (shape : List ℤ) (data : List ℕ) (now now2 : ℕ)
    (hcodec : ∀ x, codec.dec (codec.enc x) = x) :
    (Get (Put s codec key dtype shape data now).1 codec key now2).1 =
      GetResult.found data
        { key := key, dtypeStr := dtype, shape := shape,
          sizeBytes := (data.length : ℤ), compressed := s.compress,
          tier := Tier.local, storedAt := now, accessedAt := now2 } := by
  have hcmp : ∀ need, (evictUntilFits (s.index.length + 1) need s).compress
      = s.compress := fun need => evictUntilFits_compress _ _ _
  unfold Put Get
  dsimp only
  rw [indexFind_insert]
  dsimp only
  rw [readFileAt_writeFileAt_same]
  dsimp only
  rw [hcmp]
  cases hc : s.compress with
  | false => simp
  | true => simp [hcodec]

end diskstore

namespace diskstore

/-- Identity codec (compression disabled paths never consult it). -/
def idCodec : Codec := ⟨fun x => x, fun x => x⟩

/-- Reversal codec: a concrete invertible byte transform standing in for
zstd in witnesses. -/
def revCodec : Codec := ⟨List.reverse, List.reverse⟩

/-- Fresh store over empty directories with a zero local budget and no
remote tier. -/
def c1store : Store :=
  { localPath := "l", remotePath := "", index := [], localBudget := 0,
    remoteBudget := 0, localUsed := 0, remoteUsed := 0, compress := false,
    files := [], savedIndex := [] }

def c1key : BlockKey := ⟨0, 0, 0, 1, true⟩

/-- Claim C1, counterexample: with a zero local budget and no remote tier
the payload cannot fit even after the migration loop (the final state is
over budget), yet `Put` returns nil — not `BudgetExhausted` — and the
block is indexed. -/
theorem put_budget_exhausted_cex :
    (Put c1store idCodec c1key "f16" [128] (List.replicate 100 7) 0).2
        ≠ some StoreError.budgetExhausted ∧
    (Put c1store idCodec c1key "f16" [128] (List.replicate 100 7) 0).2 = none ∧
    Has (Put c1store idCodec c1key "f16" [128] (List.replicate 100 7) 0).1 c1key
        = true ∧
    (Put c1store idCodec c1key "f16" [128] (List.replicate 100 7) 0).1.localUsed
      > (Put c1store idCodec c1key "f16" [128] (List.replicate 100 7) 0).1.localBudget := by
  decide

/-- Fresh store, large budget, compression off, no remote. -/
def c2store : Store :=
  { localPath := "l", remotePath := "", index := [], localBudget := 1000000,
    remoteBudget := 0, localUsed := 0, remoteUsed := 0, compress := false,
    files := [], savedIndex := [] }

def c2key : BlockKey := ⟨0, 0, 0, 1, true⟩

/-- Store state after two `Put`s of the same key, 100 bytes each. -/
def c2s2 : Store :=
  (Put (Put c2store idCodec c2key "f16" [50] (List.replicate 100 7) 0).1
    idCodec c2key "f16" [50] (List.replicate 100 7) 1).1

/-- Claim C2, failing run: a `Put` that overwrites an existing key adds the
new payload size to `localUsed` without subtracting the overwritten
block's size, so after two 100-byte `Put`s of one key the counter reads
200 while the recomputed sum of local index sizes is 100. -/
theorem localUsed_overwrite_mismatch :
    c2s2.localUsed = 200 ∧ metaSum c2s2.index Tier.local = 100 ∧
    c2s2.localUsed ≠ metaSum c2s2.index Tier.local := by
  decide

/-- Claim C3, witness: a concrete compressed round-trip through the
reversal codec returns the original four bytes with size 4 and shape [2]. -/
def c3store : Store :=
  { localPath := "l", remotePath := "", index := [], localBudget := 1000,
    remoteBudget := 0, localUsed := 0, remoteUsed := 0, compress := true,
    files := [], savedIndex := [] }

theorem put_get_roundtrip_witness :
    (∀ x : List ℕ, revCodec.dec (revCodec.enc x) = x) ∧
    (Get (Put c3store revCodec c1key "f16" [2] [1, 2, 3, 4] 0).1
        revCodec c1key 1).1 =
      GetResult.found [1, 2, 3, 4]
        { key := c1key, dtypeStr := "f16", shape := [2], sizeBytes := 4,
          compressed := c3store.compress, tier := Tier.local, storedAt := 0,
          accessedAt := 1 } :=
  ⟨fun x => List.reverse_reverse x,
   put_get_roundtrip c3store revCodec c1key "f16" [2] [1, 2, 3, 4] 0 1
     (fun x => List.reverse_reverse x)⟩

end diskstore

namespace diskstore

theorem findOldestLocal_aux :
    ∀ (l : List BlockMeta) (acc : Option BlockMeta) (m : BlockMeta),
      l.foldl
        (fun oldest meta =>
          if meta.tier = Tier.local then
            match oldest with
            | none => some meta
            | some o =>
              if meta.accessedAt < o.accessedAt then some meta else oldest
          else oldest)
        acc = some m →
      (acc = some m ∨ (m ∈ l ∧ m.tier = Tier.local)) ∧
      (∀ x ∈ l, x.tier = Tier.local → m.accessedAt ≤ x.accessedAt) ∧
      (∀ a, acc = some a → m.accessedAt ≤ a.accessedAt) := by
  intro l
  induction l with
  | nil =>
    intro acc m h
    simp only [List.foldl_nil] at h
    refine ⟨Or.inl h, by simp, ?_⟩
    intro a ha
    rw [h] at ha
    cases ha
    exact le_refl _
  | cons x xs ih =>
    intro acc m h
    rw [List.foldl_cons] at h
    by_cases hx : x.tier = Tier.local
    · cases acc with
      | none =>
        simp only [hx, if_pos] at h
        obtain ⟨h1, h2, h3⟩ := ih (some x) m h
        have hmx : m.accessedAt ≤ x.accessedAt := h3 x rfl
        refine ⟨?_, ?_, ?_⟩
        · cases h1 with
          | inl h' =>
            cases h'
            exact Or.inr ⟨List.mem_cons_self _ _, hx⟩
          | inr h' => exact Or.inr ⟨List.mem_cons_of_mem _ h'.1, h'.2⟩
        · intro y hy hyl
          cases List.mem_cons.mp hy with
          | inl h' => exact h' ▸ hmx
          | inr h' => exact h2 y h' hyl
        · intro a ha
          cases ha
      | some a0 =>
        by_cases hlt : x.accessedAt < a0.accessedAt
        · simp only [hx, if_pos, hlt, if_true] at h
          obtain ⟨h1, h2, h3⟩ := ih (some x) m h
          have hmx : m.accessedAt ≤ x.accessedAt := h3 x rfl
          refine ⟨?_, ?_, ?_⟩
          · cases h1 with
            | inl h' =>
              cases h'
              exact Or.inr ⟨List.mem_cons_self _ _, hx⟩
            | inr h' => exact Or.inr ⟨List.mem_cons_of_mem _ h'.1, h'.2⟩
          · intro y hy hyl
            cases List.mem_cons.mp hy with
            | inl h' => exact h' ▸ hmx
            | inr h' => exact h2 y h' hyl
          · intro a ha
            cases ha
            exact le_of_lt (lt_of_le_of_lt hmx hlt)
        · simp only [hx, if_pos, hlt, if_false] at h
          obtain ⟨h1, h2, h3⟩ := ih (some a0) m h
          have hma : m.accessedAt ≤ a0.accessedAt := h3 a0 rfl
          refine ⟨?_, ?_, ?_⟩
          · cases h1 with
            | inl h' => exact Or.inl h'
            | inr h' => exact Or.inr ⟨List.mem_cons_of_mem _ h'.1, h'.2⟩
          · intro y hy hyl
            cases List.mem_cons.mp hy with
            | inl h' =>
              subst h'
              exact le_trans hma (le_of_not_lt hlt)
            | inr h' => exact h2 y h' hyl
          · intro a ha
            cases ha
            exact hma
    · simp only [hx, if_neg, if_false] at h
      obtain ⟨h1, h2, h3⟩ := ih acc m h
      refine ⟨?_, ?_, h3⟩
      · cases h1 with
        | inl h' => exact Or.inl h'
        | inr h' => exact Or.inr ⟨List.mem_cons_of_mem _ h'.1, h'.2⟩
      · intro y hy hyl
        cases List.mem_cons.mp hy with
        | inl h' =>
          subst h'
          exact absurd hyl hx
        | inr h' => exact h2 y h' hyl

/-- Claim C5 (amended): the block `evictLocalToRemote` migrates — the one
its index scan selects — is a local-tier block whose accessed-at is
minimal over the local tier; among blocks tying on accessed-at the scan
keeps the first one in the index's (unspecified) iteration order, with no
stored-at or key tie-break. -/
theorem evict_picks_minimal_accessed (index : List BlockMeta) (m : BlockMeta)
    (h : findOldestLocal index = some m) :
    m ∈ index ∧ m.tier = Tier.local ∧
    ∀ x ∈ index, x.tier = Tier.local → m.accessedAt ≤ x.accessedAt := by
  obtain ⟨h1, h2, _⟩ := findOldestLocal_aux index none m h
  cases h1 with
  | inl h' => exact Option.noConfusion h'
  | inr h' => exact ⟨h'.1, h'.2, h2⟩

def c5A : BlockMeta :=
  ⟨⟨0, 0, 0, 1, true⟩, "f16", [3], 6, false, Tier.local, 10, 5⟩

def c5B : BlockMeta :=
  ⟨⟨0, 0, 1, 2, true⟩, "f16", [3], 6, false, Tier.local, 1, 5⟩

/-- Two local blocks with equal accessed-at, the earlier-stored one second
in index order, one migration away from fitting the next payload. -/
def c5s0 : Store :=
  { localPath := "l", remotePath := "r", index := [c5A, c5B],
    localBudget := 13, remoteBudget := 1000, localUsed := 12, remoteUsed := 0,
    compress := false,
    files := [((c5A.key, Tier.local), [1, 1, 1, 1, 1, 1]),
              ((c5B.key, Tier.local), [2, 2, 2, 2, 2, 2])],
    savedIndex := [] }

def c5key : BlockKey := ⟨1, 0, 0, 1, true⟩

/-- Store after a `Put` that triggers exactly one local-to-remote
migration. -/
def c5s1 : Store := (Put c5s0 idCodec c5key "f16" [2] [9, 9, 9, 9] 20).1

/-- Claim C5, counterexample: both blocks tie on accessed-at and the spec's
tie-break (earlier stored-at first) selects `c5B`, yet the migration
triggered by `Put` moves `c5A` — the first of the tied blocks in index
order — to the remote tier and leaves `c5B` local. -/
theorem evict_tiebreak_cex :
    c5A.tier = Tier.local ∧
    (indexFind c5s1.index c5A.key).map (fun m => m.tier) = some Tier.remote ∧
    (indexFind c5s1.index c5B.key).map (fun m => m.tier) = some Tier.local ∧
    c5A.accessedAt = c5B.accessedAt ∧
    c5B.storedAt < c5A.storedAt := by
  decide

def c5wM : BlockMeta :=
  ⟨⟨2, 1, 0, 1, false⟩, "f16", [4], 8, false, Tier.local, 3, 7⟩

/-- Claim C5, witness for the amended theorem at a one-block index. -/
theorem evict_picks_minimal_accessed_witness :
    c5wM ∈ [c5wM] ∧ c5wM.tier = Tier.local ∧
    ∀ x ∈ [c5wM], x.tier = Tier.local → c5wM.accessedAt ≤ x.accessedAt :=
  evict_picks_minimal_accessed [c5wM] c5wM (by decide)

end diskstore

namespace pagedattn

theorem foldl_max_shift : ∀ (xs : List ℝ) (a b : ℝ),
    xs.foldl max (max a b) = max a (xs.foldl max b) := by
  intro xs
  induction xs with
  | nil => intro a b; rfl
  | cons x xs ih =>
    intro a b
    rw [List.foldl_cons, List.foldl_cons, max_assoc, ih]

theorem listMax_append (p s : List ℝ) (hp : p ≠ []) (hs : s ≠ []) :
    listMax (p ++ s) = max (listMax p) (listMax s) := by
  cases p with
  | nil => exact absurd rfl hp
  | cons x xs =>
    cases s with
    | nil => exact absurd rfl hs
    | cons y ys =>
      show ((xs ++ y :: ys).foldl max x) = _
      rw [List.foldl_append, List.foldl_cons, foldl_max_shift]
      rfl

theorem sum_map_exp_shift {α : Type} (f g : α → ℝ) (m m' : ℝ) (l : List α) :
    (l.map (fun r => Real.exp (f r - m') * g r)).sum
      = Real.exp (m - m') * (l.map (fun r => Real.exp (f r - m) * g r)).sum := by
  induction l with
  | nil => simp
  | cons x xs ih =>
    simp only [List.map_cons, List.sum_cons, mul_add, ih]
    congr 1
    rw [← mul_assoc, ← Real.exp_add]
    have harg : m - m' + (f x - m) = f x - m' := by ring
    rw [harg]

theorem sum_map_exp_shift_l {α : Type} (f : α → ℝ) (m m' : ℝ) (l : List α) :
    (l.map (fun r => Real.exp (f r - m'))).sum
      = Real.exp (m - m') * (l.map (fun r => Real.exp (f r - m))).sum := by
  induction l with
  | nil => simp
  | cons x xs ih =>
    simp only [List.map_cons, List.sum_cons, mul_add, ih]
    congr 1
    rw [← Real.exp_add]
    have harg : m - m' + (f x - m) = f x - m' := by ring
    rw [harg]

theorem sum_exp_nonneg {α : Type} (f : α → ℝ) (m : ℝ) (l : List α) :
    0 ≤ (l.map (fun r => Real.exp (f r - m))).sum := by
  induction l with
  | nil => simp
  | cons x xs ih =>
    simp only [List.map_cons, List.sum_cons]
    exact add_nonneg (le_of_lt (Real.exp_pos _)) ih

theorem sum_exp_pos {α : Type} (f : α → ℝ) (m : ℝ) (l : List α) (hl : l ≠ []) :
    0 < (l.map (fun r => Real.exp (f r - m))).sum := by
  cases l with
  | nil => exact absurd rfl hl
  | cons x xs =>
    simp only [List.map_cons, List.sum_cons]
    exact add_pos_of_pos_of_nonneg (Real.exp_pos _) (sum_exp_nonneg f m xs)

theorem chunkScores_append {D : ℕ} (scale : ℝ) (q : Fin D → ℝ)
    (p s : List (Row D)) :
    chunkScores scale q (p ++ s) = chunkScores scale q p ++ chunkScores scale q s := by
  simp [chunkScores]

theorem chunkScores_ne_nil {D : ℕ} (scale : ℝ) (q : Fin D → ℝ)
    (l : List (Row D)) (hl : l ≠ []) : chunkScores scale q l ≠ [] := by
  simp [chunkScores, hl]

end pagedattn

namespace pagedattn

theorem paChunkKernel_first {D : ℕ} (scale : ℝ) (q : Fin D → ℝ)
    (ch : List (Row D)) (st : PAState D) :
    paChunkKernel scale q ch true st = stateFor scale q ch := by
  refine PAState.ext ?_ ?_ ?_
  · simp [paChunkKernel, stateFor]
  · simp [paChunkKernel, stateFor]
  · funext d
    simp [paChunkKernel, stateFor]

theorem paChunkKernel_step {D : ℕ} (scale : ℝ) (q : Fin D → ℝ)
    (p ch : List (Row D)) (hp : p ≠ []) (hch : ch ≠ []) :
    paChunkKernel scale q ch false (stateFor scale q p)
      = stateFor scale q (p ++ ch) := by
  have hM : listMax (chunkScores scale q (p ++ ch))
      = max (listMax (chunkScores scale q p)) (listMax (chunkScores scale q ch)) := by
    rw [chunkScores_append]
    exact listMax_append _ _ (chunkScores_ne_nil scale q p hp)
      (chunkScores_ne_nil scale q ch hch)
  refine PAState.ext ?_ ?_ ?_
  · simp only [paChunkKernel, stateFor, hM, Bool.false_eq_true, if_false]
  · simp only [paChunkKernel, stateFor, hM, List.map_append, List.sum_append,
      Bool.false_eq_true, if_false]
    rw [sum_map_exp_shift_l (fun r => scoreOf scale q r.1)
      (listMax (chunkScores scale q p))
      (max (listMax (chunkScores scale q p)) (listMax (chunkScores scale q ch)))
      p]
    ring
  · funext d
    simp only [paChunkKernel, stateFor, hM, List.map_append, List.sum_append,
      Bool.false_eq_true, if_false]
    rw [sum_map_exp_shift (fun r => scoreOf scale q r.1) (fun r => r.2 d)
      (listMax (chunkScores scale q p))
      (max (listMax (chunkScores scale q p)) (listMax (chunkScores scale q ch)))
      p]
    ring

end pagedattn

namespace pagedattn

theorem paRunChunks_fold {D : ℕ} (scale : ℝ) (q : Fin D → ℝ) :
    ∀ (cs : List (List (Row D))) (p : List (Row D)), p ≠ [] →
      (∀ ch ∈ cs, ch ≠ []) →
      cs.foldl (fun st ch => paChunkKernel scale q ch false st)
          (stateFor scale q p)
        = stateFor scale q (p ++ cs.flatten) := by
  intro cs
  induction cs with
  | nil =>
    intro p hp _
    simp
  | cons ch cs ih =>
    intro p hp hne
    rw [List.foldl_cons,
      paChunkKernel_step scale q p ch hp (hne ch (List.mem_cons_self _ _)),
      ih (p ++ ch)
        (fun hEq => hp (List.append_eq_nil.mp hEq).1)
        (fun ch' h' => hne ch' (List.mem_cons_of_mem _ h')),
      List.flatten_cons, List.append_assoc]

theorem paRunChunks_eq_stateFor {D : ℕ} (scale : ℝ) (q : Fin D → ℝ)
    (cs : List (List (Row D))) (hcs : cs ≠ []) (hne : ∀ ch ∈ cs, ch ≠ []) :
    paRunChunks scale q cs = stateFor scale q cs.flatten := by
  cases cs with
  | nil => exact absurd rfl hcs
  | cons c cs' =>
    show (cs'.foldl (fun st ch => paChunkKernel scale q ch false st)
      (paChunkKernel scale q c true { m := 0, l := 0, o := fun _ => 0 })) = _
    rw [paChunkKernel_first,
      paRunChunks_fold scale q cs' c (hne c (List.mem_cons_self _ _))
        (fun ch' h' => hne ch' (List.mem_cons_of_mem _ h')),
      List.flatten_cons]

theorem chunksOf_join_fuel {α : Type} (c : ℕ) :
    ∀ (n : ℕ) (l : List α), l.length ≤ n → (chunksOf c l).flatten = l := by
  intro n
  induction n with
  | zero =>
    intro l h
    have : l = [] := List.eq_nil_of_length_eq_zero (Nat.le_zero.mp h)
    subst this
    simp [chunksOf]
  | succ n ih =>
    intro l h
    cases l with
    | nil => simp [chunksOf]
    | cons x xs =>
      simp only [chunksOf, List.flatten_cons]
      rw [ih (xs.drop (c - 1))
        (by
          simp only [List.length_drop]
          have := List.length_cons x xs ▸ h
          omega)]
      rw [List.cons_append, List.take_append_drop]

theorem chunksOf_join {α : Type} (c : ℕ) (l : List α) :
    (chunksOf c l).flatten = l :=
  chunksOf_join_fuel c l.length l (le_refl _)

theorem chunksOf_ne_nil_mem {α : Type} (c : ℕ) :
    ∀ (n : ℕ) (l : List α), l.length ≤ n → ∀ ch ∈ chunksOf c l, ch ≠ [] := by
  intro n
  induction n with
  | zero =>
    intro l h
    have : l = [] := List.eq_nil_of_length_eq_zero (Nat.le_zero.mp h)
    subst this
    simp [chunksOf]
  | succ n ih =>
    intro l h ch hch
    cases l with
    | nil => simp [chunksOf] at hch
    | cons x xs =>
      simp only [chunksOf, List.mem_cons] at hch
      cases hch with
      | inl h' =>
        subst h'
        exact List.cons_ne_nil _ _
      | inr h' =>
        exact ih (xs.drop (c - 1))
          (by
            simp only [List.length_drop]
            have := List.length_cons x xs ▸ h
            omega)
          ch h'

theorem chunksOf_nonempty {α : Type} (c : ℕ) (l : List α) (hl : l ≠ []) :
    chunksOf c l ≠ [] := by
  cases l with
  | nil => exact absurd rfl hl
  | cons x xs => simp [chunksOf]

end pagedattn

namespace pagedattn

theorem sum_map_div_mul {α : Type} (l : List α) (f g : α → ℝ) (c : ℝ) :
    (l.map (fun x => (f x / c) * g x)).sum
      = (l.map (fun x => f x * g x)).sum / c := by
  induction l with
  | nil => simp
  | cons x xs ih =>
    simp only [List.map_cons, List.sum_cons, ih]
    ring

set_option maxHeartbeats 1000000 in
theorem paNormalize_stateFor {D : ℕ} (scale : ℝ) (q : Fin D → ℝ)
    (sv : List (Row D)) (hsv : sv ≠ []) :
    paNormalize (stateFor scale q sv) = specSoftmaxAttention scale q sv := by
  have hL : 0 < ((sv.map (fun r => Real.exp (scoreOf scale q r.1
      - listMax (chunkScores scale q sv)))).sum) :=
    sum_exp_pos (fun r : Row D => scoreOf scale q r.1)
      (listMax (chunkScores scale q sv)) sv hsv
  have hshape : (fun (r : Row D) => Real.exp (scoreOf scale q r.1 - 0))
      = (fun r => Real.exp (scoreOf scale q r.1)) := by
    funext r
    rw [sub_zero]
  have hS : (sv.map (fun r => Real.exp (scoreOf scale q r.1))).sum
      = Real.exp (listMax (chunkScores scale q sv) - 0)
        * (sv.map (fun r => Real.exp (scoreOf scale q r.1
            - listMax (chunkScores scale q sv)))).sum := by
    rw [← hshape]
    exact sum_map_exp_shift_l (fun r : Row D => scoreOf scale q r.1)
      (listMax (chunkScores scale q sv)) 0 sv
  funext d
  have hshapeO : (fun (r : Row D) => Real.exp (scoreOf scale q r.1 - 0) * r.2 d)
      = (fun r => Real.exp (scoreOf scale q r.1) * r.2 d) := by
    funext r
    rw [sub_zero]
  have hO : (sv.map (fun r => Real.exp (scoreOf scale q r.1) * r.2 d)).sum
      = Real.exp (listMax (chunkScores scale q sv) - 0)
        * (sv.map (fun r => Real.exp (scoreOf scale q r.1
            - listMax (chunkScores scale q sv)) * r.2 d)).sum := by
    rw [← hshapeO]
    exact sum_map_exp_shift (fun r : Row D => scoreOf scale q r.1)
      (fun r : Row D => r.2 d) (listMax (chunkScores scale q sv)) 0 sv
  simp only [paNormalize, stateFor, specSoftmaxAttention]
  rw [if_pos hL]
  rw [sum_map_div_mul sv (fun r => Real.exp (scoreOf scale q r.1))
    (fun r => r.2 d)]
  rw [hO, hS, mul_div_mul_left _ _ (Real.exp_ne_zero _), mul_one_div]

/-- Claim C7: over every query vector, KV sequence of length at least one,
scale, and chunk size at least one, running the chunk kernel's
online-softmax recurrence over the `pa_forward` chunking and then
normalizing yields, in exact real arithmetic, the reference
`softmax(s · Q · Kᵀ) · V`; the result is therefore independent of the
chunk size. -/
theorem chunked_attention_exact {D : ℕ} (scale : ℝ) (q : Fin D → ℝ)
    (kv : List (Row D)) (c : ℕ) (hkv : kv ≠ []) (hc : 1 ≤ c) :
    paForwardOut scale q kv c = specSoftmaxAttention scale q kv := by
  unfold paForwardOut
  rw [paRunChunks_eq_stateFor scale q (chunksOf c kv)
    (chunksOf_nonempty c kv hkv)
    (chunksOf_ne_nil_mem c kv.length kv (le_refl _))]
  rw [chunksOf_join]
  exact paNormalize_stateFor scale q kv hkv

/-- One-position KV list over head dimension one, for the witness. -/
def oneRowKV : List (Row 1) := [((fun _ => (0 : ℝ)), (fun _ => (1 : ℝ)))]

/-- Claim C7, witness: one position, one chunk, head dim one. -/
theorem chunked_attention_exact_witness :
    oneRowKV ≠ [] ∧ (1 : ℕ) ≤ 1 ∧
    paForwardOut (1 : ℝ) (fun _ => (0 : ℝ)) oneRowKV 1
      = specSoftmaxAttention (1 : ℝ) (fun _ => (0 : ℝ)) oneRowKV :=
  ⟨List.cons_ne_nil _ _, le_refl 1,
   chunked_attention_exact (1 : ℝ) (fun _ => (0 : ℝ)) oneRowKV 1
     (List.cons_ne_nil _ _) (le_refl 1)⟩

end pagedattn

namespace pagedattn

/-- Claim C8: with `num_kv_heads ≤ num_q_heads` (both positive), each query
head's KV head `⌊q·num_kv_heads/num_q_heads⌋` is a valid index, and the
chunk kernel's output for query head `q` depends only on the K and V rows
of that KV head. -/
theorem gqa_head_mapping {D : ℕ} (nq nkv qh : ℕ) (hq : qh < nq)
    (hkv : 0 < nkv) (hle : nkv ≤ nq) :
    gqaKvHead qh nq nkv < nkv ∧
    ∀ (scale : ℝ) (Q : ℕ → Fin D → ℝ) (K K' V V' : ℕ → ℕ → Fin D → ℝ)
      (positions : List ℕ) (isFirst : Bool) (st : ℕ → PAState D),
      (∀ p t, K p (gqaKvHead qh nq nkv) t = K' p (gqaKvHead qh nq nkv) t) →
      (∀ p t, V p (gqaKvHead qh nq nkv) t = V' p (gqaKvHead qh nq nkv) t) →
      mhChunkKernel scale Q K V nq nkv positions isFirst st qh
        = mhChunkKernel scale Q K' V' nq nkv positions isFirst st qh := by
  constructor
  · have hnq : 0 < nq := lt_of_lt_of_le hkv hle
    unfold gqaKvHead
    rw [Nat.div_lt_iff_lt_mul hnq]
    calc qh * nkv < nq * nkv := (Nat.mul_lt_mul_right hkv).mpr hq
      _ = nkv * nq := Nat.mul_comm _ _
  · intro scale Q K K' V V' positions isFirst st hK hV
    unfold mhChunkKernel gqaSelect
    have hsel : (fun p => (K p (gqaKvHead qh nq nkv), V p (gqaKvHead qh nq nkv)))
        = (fun p => (K' p (gqaKvHead qh nq nkv), V' p (gqaKvHead qh nq nkv))) := by
      funext p
      have h1 : K p (gqaKvHead qh nq nkv) = K' p (gqaKvHead qh nq nkv) :=
        funext (hK p)
      have h2 : V p (gqaKvHead qh nq nkv) = V' p (gqaKvHead qh nq nkv) :=
        funext (hV p)
      rw [h1, h2]
    rw [hsel]

/-- Claim C8, witness: the spec's scenario 3 geometry (40 query heads, 8 KV
heads), query head 7. -/
theorem gqa_head_mapping_witness :
    (7 < 40) ∧ (0 < 8) ∧ (8 ≤ 40) ∧ gqaKvHead 7 40 8 < 8 :=
  ⟨by decide, by decide, by decide,
   (@gqa_head_mapping 1 40 8 7 (by decide) (by decide) (by decide)).1⟩

end pagedattn

namespace pagedattn

theorem chunkLaunchList_filter_chunk (n c : ℕ) :
    (chunkLaunchList n c).filter Launch.isChunk = chunkLaunchList n c := by
  apply List.filter_eq_self.mpr
  intro x hx
  simp only [chunkLaunchList, List.mem_map] at hx
  obtain ⟨i, _, rfl⟩ := hx
  rfl

theorem chunkLaunchList_filter_normalize (n c : ℕ) :
    (chunkLaunchList n c).filter Launch.isNormalize = [] := by
  rw [List.filter_eq_nil_iff]
  intro x hx
  simp only [chunkLaunchList, List.mem_map] at hx
  obtain ⟨i, _, rfl⟩ := hx
  simp [Launch.isNormalize]

theorem chunkLaunchList_length (n c : ℕ) :
    (chunkLaunchList n c).length = ceilDiv n c := by
  simp [chunkLaunchList]

theorem ceilDiv_pos (n c : ℕ) (hn : 1 ≤ n) (hc : 1 ≤ c) : 0 < ceilDiv n c := by
  unfold ceilDiv
  exact Nat.div_pos (by omega) hc

theorem ceilDiv_mul_bounds (n c : ℕ) (hn : 1 ≤ n) (hc : 1 ≤ c) :
    n ≤ ceilDiv n c * c ∧ ceilDiv n c * c < n + c := by
  unfold ceilDiv
  have h := Nat.div_add_mod (n + c - 1) c
  have hm := Nat.mod_lt (n + c - 1) (show 0 < c from hc)
  have h2 : (n + c - 1) / c * c = c * ((n + c - 1) / c) := Nat.mul_comm _ _
  omega

theorem chunkLaunchList_cons (n c m : ℕ) (hm : ceilDiv n c = m + 1) :
    chunkLaunchList n c = Launch.chunk true (chunkLenAt n c 0)
      :: (List.range m).map (fun i => Launch.chunk false (chunkLenAt n c (i + 1))) := by
  simp [chunkLaunchList, hm, List.range_succ_eq_map, List.map_map,
    Function.comp, Nat.succ_ne_zero]

end pagedattn

namespace pagedattn

/-- Claim C9: a `pa_forward` call whose guards pass (valid context and
layer, registered host KV, positive sequence length, chunk size at least
one, supported head dim) succeeds, issues exactly `⌈N/C⌉` chunk-kernel
launches — the first with `is_first` set and every later one with it
clear — followed by exactly one normalize launch in last position, and
bumps the chunks-processed counter by `⌈N/C⌉`; `⌈N/C⌉` here is the
source's `ceil_div`, whose ceiling character is pinned by the final two
bounds. -/
theorem pa_forward_launches (ctx : PaCtx) (layer : ℤ)
    (batchSize numQHeads : ℕ) (seqLen : ℤ)
    (hlay0 : 0 ≤ layer) (hlay1 : layer < paMaxLayers)
    (hk : (ctx.layers layer.toNat).kHost ≠ 0)
    (hv : (ctx.layers layer.toNat).vHost ≠ 0)
    (hseq : 1 ≤ seqLen)
    (hcs : 1 ≤ ctx.chunkSize)
    (hdim : supportedHeadDim ctx.headDim = true) :
    (paForward (some ctx) layer batchSize numQHeads seqLen).2.1 = 0 ∧
    (paForward (some ctx) layer batchSize numQHeads seqLen).2.2
      = chunkLaunchList seqLen.toNat ctx.chunkSize ++ [Launch.normalize] ∧
    ((paForward (some ctx) layer batchSize numQHeads seqLen).2.2.filter
        Launch.isChunk).length = ceilDiv seqLen.toNat ctx.chunkSize ∧
    ((paForward (some ctx) layer batchSize numQHeads seqLen).2.2.filter
        Launch.isNormalize).length = 1 ∧
    (paForward (some ctx) layer batchSize numQHeads seqLen).2.2.getLast?
      = some Launch.normalize ∧
    (paForward (some ctx) layer batchSize numQHeads seqLen).2.2.head?
      = some (Launch.chunk true (chunkLenAt seqLen.toNat ctx.chunkSize 0)) ∧
    (∀ l ∈ (paForward (some ctx) layer batchSize numQHeads seqLen).2.2.tail,
      l = Launch.normalize ∨ ∃ len, l = Launch.chunk false len) ∧
    ((paForward (some ctx) layer batchSize numQHeads seqLen).1.map
        (fun c2 => c2.stats.chunksProcessed))
      = some (ctx.stats.chunksProcessed
          + (ceilDiv seqLen.toNat ctx.chunkSize : ℤ)) ∧
    seqLen.toNat ≤ ceilDiv seqLen.toNat ctx.chunkSize * ctx.chunkSize ∧
    ceilDiv seqLen.toNat ctx.chunkSize * ctx.chunkSize
      < seqLen.toNat + ctx.chunkSize := by
  have hn : 1 ≤ seqLen.toNat := by omega
  have hguard1 : ¬ (layer < 0 ∨ paMaxLayers ≤ layer) := by
    push_neg
    exact ⟨hlay0, hlay1⟩
  have hguard2 : ¬ ((ctx.layers layer.toNat).kHost = 0
      ∨ (ctx.layers layer.toNat).vHost = 0) := by
    push_neg
    exact ⟨hk, hv⟩
  have hguard3 : ¬ (seqLen ≤ 0) := by omega
  obtain ⟨m, hm⟩ : ∃ m, ceilDiv seqLen.toNat ctx.chunkSize = m + 1 :=
    ⟨ceilDiv seqLen.toNat ctx.chunkSize - 1,
     by have := ceilDiv_pos seqLen.toNat ctx.chunkSize hn hcs; omega⟩
  simp only [paForward, if_neg hguard1, if_neg hguard2, if_neg hguard3,
    hdim, if_true]
  refine ⟨by trivial, by trivial, ?_, ?_, ?_, ?_, ?_, by trivial,
    (ceilDiv_mul_bounds seqLen.toNat ctx.chunkSize hn hcs).1,
    (ceilDiv_mul_bounds seqLen.toNat ctx.chunkSize hn hcs).2⟩
  · rw [List.filter_append, chunkLaunchList_filter_chunk, List.length_append,
      chunkLaunchList_length]
    simp [Launch.isChunk]
  · rw [List.filter_append, chunkLaunchList_filter_normalize]
    simp [Launch.isNormalize]
  · exact List.getLast?_concat _
  · rw [chunkLaunchList_cons seqLen.toNat ctx.chunkSize m hm]
    rfl
  · intro l hl
    rw [chunkLaunchList_cons seqLen.toNat ctx.chunkSize m hm] at hl
    simp only [List.cons_append, List.tail_cons, List.mem_append,
      List.mem_map, List.mem_singleton] at hl
    cases hl with
    | inl h' =>
      obtain ⟨i, _, rfl⟩ := h'
      exact Or.inr ⟨chunkLenAt seqLen.toNat ctx.chunkSize (i + 1), rfl⟩
    | inr h' => exact Or.inl h'

/-- Context used by the `pa_forward` witnesses: the spec's scenario 2
geometry (head_dim 128, chunk 128, 300 positions registered in layer 0). -/
def sampleCtx : PaCtx :=
  { numKvHeads := 1, headDim := 128, chunkSize := 128, dtype := PaDtype.f16,
    layers := fun _ => ⟨1, 1, 300⟩, stats := ⟨0, 0⟩, stateCapacity := 0 }

/-- Claim C9, witness: 300 positions at chunk size 128 give three chunk
launches and one normalize. -/
theorem pa_forward_launches_witness :
    (0 : ℤ) ≤ 0 ∧ (0 : ℤ) < paMaxLayers ∧
    (sampleCtx.layers (0 : ℤ).toNat).kHost ≠ 0 ∧
    (sampleCtx.layers (0 : ℤ).toNat).vHost ≠ 0 ∧
    (1 : ℤ) ≤ 300 ∧ 1 ≤ sampleCtx.chunkSize ∧
    supportedHeadDim sampleCtx.headDim = true ∧
    ((paForward (some sampleCtx) 0 1 1 300).2.2.filter Launch.isChunk).length
      = ceilDiv (300 : ℤ).toNat sampleCtx.chunkSize :=
  ⟨by decide, by decide, by decide, by decide, by decide, by decide, rfl,
   (pa_forward_launches sampleCtx 0 1 1 300 (by decide) (by decide)
     (by decide) (by decide) (by decide) (by decide) rfl).2.2.1⟩

end pagedattn

namespace pagedattn

/-- Claim C10: whenever one of `pa_forward`'s guards fails — NULL context,
layer outside `[0, 128)`, unregistered host K/V pointers for the layer, or
non-positive sequence length (in particular an empty KV sequence) — the
call returns `-1`, issues no kernel launch (so the output buffer and the
running state are untouched), and leaves the context unchanged. -/
theorem pa_forward_guard_rejects (ctx? : Option PaCtx) (layer : ℤ)
    (batchSize numQHeads : ℕ) (seqLen : ℤ)
    (h : paPrecondFails ctx? layer seqLen = true) :
    paForward ctx? layer batchSize numQHeads seqLen = (ctx?, -1, []) := by
  cases ctx? with
  | none => rfl
  | some ctx =>
    simp only [paPrecondFails, Bool.or_eq_true, decide_eq_true_eq,
      beq_iff_eq] at h
    unfold paForward
    dsimp only
    by_cases hA : layer < 0 ∨ paMaxLayers ≤ layer
    · rw [if_pos hA]
    · rw [if_neg hA]
      by_cases hB : (ctx.layers layer.toNat).kHost = 0
          ∨ (ctx.layers layer.toNat).vHost = 0
      · rw [if_pos hB]
      · rw [if_neg hB]
        by_cases hC : seqLen ≤ 0
        · rw [if_pos hC]
        · exfalso
          rcases h with ((((h1 | h2) | h3) | h4) | h5)
          · exact hA (Or.inl h1)
          · exact hA (Or.inr h2)
          · exact hB (Or.inl h3)
          · exact hB (Or.inr h4)
          · exact hC h5

/-- Claim C10, witness: a zero-length KV sequence on an otherwise fully
valid context is rejected with `-1`, no launches, context unchanged. -/
theorem pa_forward_guard_rejects_witness :
    paPrecondFails (some sampleCtx) 0 0 = true ∧
    paForward (some sampleCtx) 0 1 1 0 = (some sampleCtx, -1, []) :=
  ⟨rfl, pa_forward_guard_rejects (some sampleCtx) 0 1 1 0 rfl⟩

end pagedattn
